import Mathlib

/-!
Shallow embedding of the Backtester repository (Account.py, Backtest.py,
Performance.py).  Monetary amounts, prices and returns are modelled as
rationals; a Python float NaN (or infinity) arising from a division by zero
is modelled by `none` in an `Option ℚ` valued pipeline.  Dates are modelled
as natural numbers.
-/

namespace Backtester

/-- One row of the joined price/signal table `pl_df`: a date, one price per
ticker (by ticker index, in the order of `self.tickers`) and one signal per
ticker (`{ticker}_signal` columns, same order). -/
structure SigRow where
  date : ℕ
  prices : List ℚ
  signals : List ℤ
deriving DecidableEq, Repr

/-- Account.py, class `account`: cash, mark-to-market asset value and the
`daily_account_value` dict with its two parallel lists. -/
structure account where
  cash : ℚ
  asset_value : ℚ
  daily_dates : List ℕ
  daily_values : List ℚ
deriving DecidableEq, Repr

/-- Account.py `account.update_cash`: `self.cash += cash`. -/
def account.update_cash (a : account) (c : ℚ) : account :=
  { a with cash := a.cash + c }

/-- Account.py `account.update_asset_value`: overwrite the asset value. -/
def account.update_asset_value (a : account) (v : ℚ) : account :=
  { a with asset_value := v }

/-- Account.py `account.update_daily_account_value`: append the date and
`self.cash + self.asset_value` to the two history lists. -/
def account.update_daily_account_value (a : account) (date : ℕ) : account :=
  { a with
      daily_dates := a.daily_dates ++ [date]
      daily_values := a.daily_values ++ [a.cash + a.asset_value] }

/-- The mutable state driven by `backtest.run`: `self.account` and
`self.pos.position` (Account.py class `position`, a per-ticker quantity,
represented by ticker index in the order of `self.tickers`). -/
structure BState where
  account : account
  position : List ℚ
deriving DecidableEq, Repr

/-- `backtest.__init__` state: `account(init_cash = init_capital)` and
`position(tickers)` (all holdings 0). -/
def init_state (init_capital : ℚ) (k : ℕ) : BState :=
  { account := { cash := init_capital, asset_value := 0, daily_dates := [], daily_values := [] }
    position := List.replicate k 0 }

/-- A row with no data; stands for the out-of-domain result of indexing an
empty frame (never reached on the real inputs, where every processed date
occurs in the frame). -/
def defaultRow : SigRow := { date := 0, prices := [], signals := [] }

/-- `curr_day[...][-1]`: the last row of the day's filtered frame. -/
def lastRow (cd : List SigRow) : SigRow := cd.getLastD defaultRow

/-- Backtest.py lines 85-90, the body of the sell pass: iterate tickers in
order; when `signal == -1 and position != 0`, credit
`price * quantity * (1 - slippage)` to cash and zero the holding.  Returns
the updated position list and cash. -/
def sellPass (slip : ℚ) : List ℤ → List ℚ → List ℚ → ℚ → List ℚ × ℚ
  | s :: ss, p :: ps, q :: qs, cash =>
    if s = -1 ∧ q ≠ 0 then
      let r := sellPass slip ss ps qs (cash + p * q * (1 - slip))
      (0 :: r.1, r.2)
    else
      let r := sellPass slip ss ps qs cash
      (q :: r.1, r.2)
  | _, _, _, cash => ([], cash)

/-- The sell pass applied to the state, reading signals and prices from the
last row of the day. -/
def sellPhase (slip : ℚ) (row : SigRow) (st : BState) : BState :=
  let r := sellPass slip row.signals row.prices st.position st.account.cash
  { account := { st.account with cash := r.2 }, position := r.1 }

/-- Backtest.py lines 93-96: the candidate flags, per ticker index:
`signal == 1 and position == 0`. -/
def buy_candidates (ss : List ℤ) (qs : List ℚ) : List Bool :=
  List.zipWith (fun s q => s == 1 && q == 0) ss qs

/-- Backtest.py lines 100-104: iterate candidates in ticker order with the
fixed `cash_allocation`; when `cash_allocation / price > 1`, set the holding
to `cash_allocation / price` and debit `cash_allocation * (1 + slippage)`. -/
def buyApply (slip alloc : ℚ) : List Bool → List ℚ → List ℚ → ℚ → List ℚ × ℚ
  | b :: bs, p :: ps, q :: qs, cash =>
    if b = true ∧ 1 < alloc / p then
      let r := buyApply slip alloc bs ps qs (cash - alloc * (1 + slip))
      (alloc / p :: r.1, r.2)
    else
      let r := buyApply slip alloc bs ps qs cash
      (q :: r.1, r.2)
  | _, _, _, cash => ([], cash)

/-- Backtest.py lines 93-104, body of `if buy_signal:`: collect candidates,
and when `cash > 0 and len(buy_ticker) > 0` allocate
`cash / len(buy_ticker)` (a single snapshot) and run the buy loop. -/
def buyPhase (slip : ℚ) (row : SigRow) (st : BState) : BState :=
  let cands := buy_candidates row.signals st.position
  let n := cands.count true
  if 0 < st.account.cash ∧ 0 < n then
    let alloc := st.account.cash / (n : ℚ)
    let r := buyApply slip alloc cands row.prices st.position st.account.cash
    { account := { st.account with cash := r.2 }, position := r.1 }
  else st

/-- Backtest.py line 99: `cash_allocation = self.account.cash /
len(buy_ticker)` — one snapshot of the pre-buy cash divided by the number
of candidates, never recomputed within the pass. -/
def cash_allocation (row : SigRow) (st : BState) : ℚ :=
  st.account.cash / ((buy_candidates row.signals st.position).count true : ℚ)

/-- Backtest.py line 82 guard + lines 84-90: the sell pass runs only when
some row of the day has a `-1` signal
(`((curr_day_signal == -1).sum_horizontal() > 0).any()`). -/
def sellStage (slip : ℚ) (cd : List SigRow) (st : BState) : BState :=
  if cd.any (fun r => decide (0 < r.signals.countP (fun s => s == -1))) then
    sellPhase slip (lastRow cd) st
  else st

/-- Backtest.py line 81 guard + lines 92-104: the buy pass runs only when
some row of the day has a `+1` signal. -/
def buyStage (slip : ℚ) (cd : List SigRow) (st : BState) : BState :=
  if cd.any (fun r => decide (0 < r.signals.countP (fun s => s == 1))) then
    buyPhase slip (lastRow cd) st
  else st

/-- Backtest.py lines 106-110: `today_asset_value` is the sum of
`position * price` over tickers (last row's prices), stored with
`update_asset_value`. -/
def markToMarket (row : SigRow) (st : BState) : BState :=
  { st with
      account := st.account.update_asset_value
        ((List.zipWith (fun q p => q * p) st.position row.prices).sum) }

/-- Backtest.py line 111: record the day via `update_daily_account_value`. -/
def recordDay (row : SigRow) (st : BState) : BState :=
  { st with account := st.account.update_daily_account_value row.date }

/-- Backtest.py lines 77-111, the body of the per-date loop: sell pass, then
buy pass, then mark-to-market, then record. -/
def stepDay (slip : ℚ) (cd : List SigRow) (st : BState) : BState :=
  recordDay (lastRow cd) (markToMarket (lastRow cd) (buyStage slip cd (sellStage slip cd st)))

/-- Backtest.py lines 77-111: `for date in self.dates` (one iteration per
input row, duplicates included) with
`curr_day = self.pl_df.filter(pl.col('Date') == date)`. -/
def backtest_run (slip : ℚ) (df : List SigRow) (st : BState) : BState :=
  (df.map (fun r => r.date)).foldl
    (fun s d => stepDay slip (df.filter (fun r => r.date == d)) s) st

/-- Backtest.py lines 113-114:
`np.pad(np.diff(V) / V[1:], (1, 0), constant, 0)`.  For `V = []` numpy
produces the single element `[0.]`; for nonempty `V` the result is `0`
followed by `(V[t] - V[t-1]) / V[t]`. -/
def port_ret (V : List ℚ) : List ℚ :=
  0 :: List.zipWith (fun prev cur => (cur - prev) / cur) V V.tail

/-!  Performance.py.  The float standard deviations are square roots of the
rational variances below; a claim about two stds agreeing, or a std being
zero, is settled on the variances (both stds are nonnegative, so they agree
exactly when their squares do). -/

/-- Arithmetic mean (`np.mean` / the convolution kernel `ones(n)/n`). -/
def mean (xs : List ℚ) : ℚ := xs.sum / (xs.length : ℚ)

/-- Square of numpy's `ndarray.std` with its default `ddof = 0`
(Performance.py lines 43, 57, 87): the population variance. -/
def pop_var (xs : List ℚ) : ℚ :=
  ((xs.map (fun x => (x - mean xs) ^ 2)).sum) / (xs.length : ℚ)

/-- Square of the standard deviation polars uses in
`Series.rolling_std` with its default `ddof = 1` (Performance.py lines 50,
67) on one full window: the sample variance. -/
def sample_var (xs : List ℚ) : ℚ :=
  ((xs.map (fun x => (x - mean xs) ^ 2)).sum) / ((xs.length : ℚ) - 1)

/-- The window of length `n` ending at index `i` (inclusive). -/
def window_ending (n i : ℕ) (xs : List ℚ) : List ℚ :=
  (xs.take (i + 1)).drop (i + 1 - n)

/-- `pl.Series(xs).rolling_std(n).to_numpy()` squared (Performance.py line
50): the first `n - 1` slots are null (NaN after `to_numpy`), modelled as
`none`; a window of fewer than 2 samples with `ddof = 1` (`n = 1`) yields
NaN as well; every other slot carries the sample variance of the window
ending there. -/
def rolling_std_sq (n : ℕ) (xs : List ℚ) : List (Option ℚ) :=
  (List.range xs.length).map (fun i =>
    if i + 1 < n ∨ n ≤ 1 then none else some (sample_var (window_ending n i xs)))

/-- Performance.py lines 47-49: `np.concatenate((np.zeros(n - 1),
np.convolve(xs, np.ones(n) / n, mode valid)))` — an explicit zero pad of
length `n - 1` followed by the full-window moving averages (valid for
`1 ≤ n ≤ len xs`, the shape under which the subsequent division
broadcasts). -/
def rolling_mean (n : ℕ) (xs : List ℚ) : List ℚ :=
  List.replicate (n - 1) 0 ++
    (List.range (xs.length + 1 - n)).map (fun j => mean ((xs.drop j).take n))

/-- Performance.py line 52: `(rolling_mean / rolling_std) * np.sqrt(252)`.
Entry `i` is `none` when the float entry is not a finite number (rolling
std NaN in the padded slots, or zero std giving `0/0 = NaN` or `±inf`);
otherwise it carries `sign s * s^2 = 252 * m * |m| / var` where
`s = m / std * sqrt 252` is the float value — a strictly monotone rational
encoding of the float entry. -/
def rolling_sharpe (n : ℕ) (xs : List ℚ) : List (Option ℚ) :=
  List.zipWith (fun m v? =>
      match v? with
      | none => none
      | some v => if v = 0 then none else some (252 * m * |m| / v))
    (rolling_mean n xs) (rolling_std_sq n xs)

/-- `np.cumprod` of `1 + xs` with running accumulator `acc`. -/
def cumprod_from (acc : ℚ) : List ℚ → List ℚ
  | [] => []
  | x :: xs => (acc * (1 + x)) :: cumprod_from (acc * (1 + x)) xs

/-- Performance.py lines 36, 74, 81: `np.cumprod(xs + 1)`. -/
def cumprod1p (xs : List ℚ) : List ℚ := cumprod_from 1 xs

/-- `np.maximum.accumulate` with running maximum `m`. -/
def runningMaxAux (m : ℚ) : List ℚ → List ℚ
  | [] => []
  | x :: xs => max m x :: runningMaxAux (max m x) xs

/-- Performance.py lines 75, 82: `np.maximum.accumulate`. -/
def runningMax : List ℚ → List ℚ
  | [] => []
  | x :: xs => x :: runningMaxAux x xs

/-- Float division with NaN/inf modelled as `none`. -/
def divOpt (a b : ℚ) : Option ℚ := if b = 0 then none else some (a / b)

/-- The binary maximum of two float values where `none` (NaN) propagates. -/
def maxOptCombine (a b : Option ℚ) : Option ℚ :=
  match a, b with
  | some x, some y => some (max x y)
  | _, _ => none

/-- `np.max` over a float array: NaN (here `none`) propagates; empty input
is an error, modelled as `none`. -/
def listMaxOpt : List (Option ℚ) → Option ℚ
  | [] => none
  | [a] => a
  | a :: b :: rest => maxOptCombine a (listMaxOpt (b :: rest))

/-- Round half to even (Python's built-in `round`). -/
def roundHE (q : ℚ) : ℤ :=
  let f := ⌊q⌋
  let r := q - (f : ℚ)
  if r < 1 / 2 then f else if 1 / 2 < r then f + 1 else if Even f then f else f + 1

/-- Python `round(q, 2)`. -/
def round2 (q : ℚ) : ℚ := (roundHE (q * 100) : ℚ) / 100

/-- Performance.py lines 73-78, `compute_max_dd` on a return series:
`cum_ret = np.cumprod(1 + r)`, `cum_roll_max = np.maximum.accumulate`,
`max_drawdown = np.max((cum_roll_max - cum_ret) / cum_roll_max)`,
`round(max_drawdown * 100, 2)`.  `none` marks a NaN/inf/error float
result. -/
def compute_max_dd (xs : List ℚ) : Option ℚ :=
  let cum := cumprod1p xs
  let cum_roll_max := runningMax cum
  let ratios :=
    List.zipWith divOpt (List.zipWith (fun m c => m - c) cum_roll_max cum) cum_roll_max
  (listMaxOpt ratios).map (fun v => round2 (v * 100))

/-- Performance.py lines 80-84, `compute_drawdown` on a return series:
`cum_ret / np.maximum.accumulate(cum_ret) - 1` elementwise (`none` marks a
NaN float entry from a zero peak). -/
def compute_drawdown_list (xs : List ℚ) : List (Option ℚ) :=
  let cum := cumprod1p xs
  let peak := runningMax cum
  List.zipWith (fun c p => (divOpt c p).map (fun r => r - 1)) cum peak

/-- Performance.py lines 21-33, class `performance` constructor state:
`trade_days = 252`, `timeframe = years * 252`,
`portfolio_ret = portfolio_ret[-timeframe:]` (the Python slice `[-0:]` is
the whole array), `rolling = portfolio_ret` (the full series). -/
structure performance where
  years : ℕ
  trade_days : ℕ
  timeframe : ℕ
  portfolio_ret : List ℚ
  rolling : List ℚ
deriving DecidableEq, Repr

/-- Python's `xs[-t:]`: the whole list when `t = 0` (since `-0 == 0`), and
the last `min t (len xs)` elements otherwise. -/
def trailing_slice (t : ℕ) (xs : List ℚ) : List ℚ :=
  if t = 0 then xs else xs.drop (xs.length - t)

/-- `performance.__init__(portfolio_ret, years)`. -/
def performance.init (ret : List ℚ) (years : ℕ) : performance :=
  { years := years
    trade_days := 252
    timeframe := years * 252
    portfolio_ret := trailing_slice (years * 252) ret
    rolling := ret }

/-- Performance.py lines 35-36: `np.cumprod(self.rolling + 1)` — the full
series, not the trailing slice. -/
def performance.compute_cum_rets (p : performance) : List ℚ := cumprod1p p.rolling

/-- Performance.py lines 80-84 as a method: drawdown of the trailing slice
`self.portfolio_ret`. -/
def performance.compute_drawdown (p : performance) : List (Option ℚ) :=
  compute_drawdown_list p.portfolio_ret

/-- Performance.py lines 73-78 as a method. -/
def performance.compute_max_dd_method (p : performance) : Option ℚ :=
  compute_max_dd p.portfolio_ret

/-- Performance.py lines 46-53 as a method: the rolling window is
`self.timeframe` over the full series `self.rolling`. -/
def performance.compute_rolling_sharpe (p : performance) : List (Option ℚ) :=
  rolling_sharpe p.timeframe p.rolling

/-- Backtest.py lines 139-141 (`generate_performance`): the timeframes for
which the windowed metrics (rolling Sharpe/Sortino at window `tf * 252`)
are actually computed — the loop guard is `len(self.pl_df) > tf`. -/
def generate_performance_computed (df_len : ℕ) (timeframe : List ℕ) : List ℕ :=
  timeframe.filter (fun tf => decide (tf < df_len))

/-- Backtest.py lines 164-173 (`generate_report`): same guard
`len(self.pl_df) > tf` in front of the windowed metrics. -/
def generate_report_computed (df_len : ℕ) (timeframe : List ℕ) : List ℕ :=
  timeframe.filter (fun tf => decide (tf < df_len))

/-! Helper lemmas. -/

theorem cumprod_from_length (a : ℚ) (xs : List ℚ) :
    (cumprod_from a xs).length = xs.length := by
  induction xs generalizing a with
  | nil => rfl
  | cons x t ih => simp [cumprod_from, ih]

theorem cumprod1p_length (xs : List ℚ) : (cumprod1p xs).length = xs.length :=
  cumprod_from_length 1 xs

theorem runningMaxAux_length (m : ℚ) (xs : List ℚ) :
    (runningMaxAux m xs).length = xs.length := by
  induction xs generalizing m with
  | nil => rfl
  | cons x t ih => simp [runningMaxAux, ih]

theorem runningMax_length (xs : List ℚ) : (runningMax xs).length = xs.length := by
  cases xs with
  | nil => rfl
  | cons x t => simp [runningMax, runningMaxAux_length]

/-- C8: when the Performance Engine is constructed with `years == 0`, the
trailing slice `self.portfolio_ret` is the whole input series (Python
`[-0:]`), so the full-history cumulative-return and drawdown computations
operate on the complete series and their outputs have the length of the
input series. -/
theorem years_zero_uses_full_series (ret : List ℚ) :
    (performance.init ret 0).portfolio_ret = ret
    ∧ (performance.init ret 0).rolling = ret
    ∧ (performance.init ret 0).compute_cum_rets.length = ret.length
    ∧ (performance.init ret 0).compute_drawdown.length = ret.length := by
  have hslice : (performance.init ret 0).portfolio_ret = ret := by
    simp [performance.init, trailing_slice]
  refine ⟨hslice, rfl, ?_, ?_⟩
  · simp [performance.compute_cum_rets, performance.init, cumprod1p_length]
  · simp [performance.compute_drawdown, compute_drawdown_list, hslice,
      cumprod1p_length, runningMax_length]

/-- C6 counterexample: with 2 input rows and a 1-year timeframe, the guard
`len(pl_df) > tf` in `generate_performance` / `generate_report` passes and
the windowed metrics are computed, although the window length `1 * 252`
exceeds the available history. -/
theorem windowed_guard_counterexample :
    1 ∈ generate_performance_computed 2 [1]
    ∧ 1 ∈ generate_report_computed 2 [1]
    ∧ ¬ (1 * 252 < 2) := by decide

/-- C6 (amended): `generate_performance` and `generate_report` invoke the
windowed metrics for a timeframe `tf` exactly when `len(pl_df) > tf` — the
guard compares against the year count `tf` itself, not the window length
`tf * 252`, so windowed metrics can be invoked over insufficient history. -/
theorem windowed_guard_spec (df_len : ℕ) (timeframe : List ℕ) (tf : ℕ) :
    (tf ∈ generate_performance_computed df_len timeframe ↔ tf ∈ timeframe ∧ tf < df_len)
    ∧ (tf ∈ generate_report_computed df_len timeframe ↔ tf ∈ timeframe ∧ tf < df_len) := by
  constructor <;>
    simp [generate_performance_computed, generate_report_computed, List.mem_filter]

/-- C5 counterexample: on the window `[0, 1]`, the rolling standard
deviation of `compute_rolling_sharpe` (polars `rolling_std`, sample
convention, squared value `1/2`) does not agree with the standard deviation
used by `compute_sharpe` / `compute_volatility` (numpy `.std`, population
convention, squared value `1/4`); the stds are nonnegative, so they differ
exactly when their squares do. -/
theorem std_convention_counterexample :
    (rolling_std_sq 2 [0, 1]).getD 1 none ≠ some (pop_var [0, 1])
    ∧ (rolling_std_sq 2 [0, 1]).getD 1 none = some (1 / 2)
    ∧ pop_var [0, 1] = 1 / 4 := by
  norm_num [rolling_std_sq, sample_var, pop_var, mean, window_ending, List.range_succ]

theorem rolling_std_sq_getD (n : ℕ) (xs : List ℚ) (i : ℕ) (hi : i < xs.length) :
    (rolling_std_sq n xs).getD i none
      = if i + 1 < n ∨ n ≤ 1 then none
        else some (sample_var (window_ending n i xs)) := by
  have hlen : i < (rolling_std_sq n xs).length := by
    simpa [rolling_std_sq] using hi
  rw [List.getD_eq_getElem _ _ hlen]
  simp [rolling_std_sq]

/-- C5 (amended): the Performance Engine mixes the two std conventions:
`compute_sharpe` / `compute_sortino` / `compute_volatility` use numpy's
population std (ddof 0) while the rolling variants use polars' sample std
(ddof 1).  Over one full window of length `n ≥ 2` the squared stds satisfy
`(n - 1) * sample = n * population`; they agree exactly when the window has
zero variance. -/
theorem std_convention_relation (xs : List ℚ) (h : 2 ≤ xs.length) :
    (rolling_std_sq xs.length xs).getD (xs.length - 1) none = some (sample_var xs)
    ∧ ((xs.length : ℚ) - 1) * sample_var xs = (xs.length : ℚ) * pop_var xs
    ∧ (sample_var xs = pop_var xs ↔ pop_var xs = 0) := by
  have hn0 : (xs.length : ℚ) ≠ 0 := by
    have : (0 : ℚ) < (xs.length : ℚ) := by exact_mod_cast Nat.lt_of_lt_of_le Nat.zero_lt_two h
    exact ne_of_gt this
  have hn1 : (xs.length : ℚ) - 1 ≠ 0 := by
    have h2 : (2 : ℚ) ≤ (xs.length : ℚ) := by exact_mod_cast h
    intro hc
    nlinarith
  refine ⟨?_, ?_, ?_⟩
  · rw [rolling_std_sq_getD xs.length xs (xs.length - 1) (by omega)]
    have hcond : ¬ (xs.length - 1 + 1 < xs.length ∨ xs.length ≤ 1) := by omega
    rw [if_neg hcond]
    have hwin : window_ending xs.length (xs.length - 1) xs = xs := by
      unfold window_ending
      have h1 : xs.length - 1 + 1 = xs.length := by omega
      rw [h1, List.take_length]
      have h2 : xs.length - xs.length = 0 := by omega
      rw [h2, List.drop_zero]
    rw [hwin]
  · unfold sample_var pop_var
    field_simp
  · unfold sample_var pop_var
    rw [div_eq_div_iff hn1 hn0, div_eq_zero_iff]
    constructor
    · intro he
      left
      nlinarith [he]
    · intro hor
      rcases hor with hs | hz
      · rw [hs]; ring
      · exact absurd hz hn0

theorem sellStage_preserves (slip : ℚ) (cd : List SigRow) (st : BState) :
    (sellStage slip cd st).account.daily_values = st.account.daily_values
    ∧ (sellStage slip cd st).account.daily_dates = st.account.daily_dates
    ∧ (sellStage slip cd st).account.asset_value = st.account.asset_value := by
  unfold sellStage sellPhase
  split <;> simp

theorem buyStage_preserves (slip : ℚ) (cd : List SigRow) (st : BState) :
    (buyStage slip cd st).account.daily_values = st.account.daily_values
    ∧ (buyStage slip cd st).account.daily_dates = st.account.daily_dates
    ∧ (buyStage slip cd st).account.asset_value = st.account.asset_value := by
  unfold buyStage buyPhase
  split
  · dsimp only
    split <;> simp
  · simp

theorem markToMarket_preserves (row : SigRow) (st : BState) :
    (markToMarket row st).account.daily_values = st.account.daily_values
    ∧ (markToMarket row st).account.daily_dates = st.account.daily_dates
    ∧ (markToMarket row st).account.cash = st.account.cash := by
  unfold markToMarket account.update_asset_value
  simp

theorem stepDay_history (slip : ℚ) (cd : List SigRow) (st : BState) :
    (stepDay slip cd st).account.daily_values
      = st.account.daily_values
        ++ [(stepDay slip cd st).account.cash + (stepDay slip cd st).account.asset_value]
    ∧ (stepDay slip cd st).account.daily_dates
      = st.account.daily_dates ++ [(lastRow cd).date] := by
  have h3 := markToMarket_preserves (lastRow cd) (buyStage slip cd (sellStage slip cd st))
  have h2 := buyStage_preserves slip cd (sellStage slip cd st)
  have h1 := sellStage_preserves slip cd st
  unfold stepDay recordDay account.update_daily_account_value
  refine ⟨?_, ?_⟩ <;>
    simp [h3.1, h3.2.1, h2.1, h2.2.1, h1.1, h1.2.1]

theorem run_foldl_history (slip : ℚ) (g : ℕ → List SigRow) (ds : List ℕ) (st : BState) :
    ((ds.foldl (fun s d => stepDay slip (g d) s) st).account.daily_values.length
      = st.account.daily_values.length + ds.length)
    ∧ ∃ extra, (ds.foldl (fun s d => stepDay slip (g d) s) st).account.daily_values
      = st.account.daily_values ++ extra := by
  induction ds generalizing st with
  | nil => exact ⟨by simp, [], by simp⟩
  | cons d t ih =>
    obtain ⟨ihlen, e, he⟩ := ih (stepDay slip (g d) st)
    have hs := stepDay_history slip (g d) st
    refine ⟨?_, ?_⟩
    · simp only [List.foldl_cons]
      rw [ihlen, hs.1]
      simp
      omega
    · refine ⟨[(stepDay slip (g d) st).account.cash
          + (stepDay slip (g d) st).account.asset_value] ++ e, ?_⟩
      simp only [List.foldl_cons]
      rw [he, hs.1, List.append_assoc]

theorem backtest_run_history (slip : ℚ) (df : List SigRow) (st : BState) :
    ((backtest_run slip df st).account.daily_values.length
        = st.account.daily_values.length + df.length)
    ∧ ∃ extra, (backtest_run slip df st).account.daily_values
        = st.account.daily_values ++ extra := by
  have h := run_foldl_history slip (fun d => df.filter (fun r => r.date == d))
    (df.map (fun r => r.date)) st
  simpa [backtest_run] using h

/-- C4: every processed period appends exactly one `(date, value)` entry to
the account-value history, the value being `cash + asset_value` at
recording time (the final cash/asset value of the step, since recording is
the last action of the period); the run never shortens or rewrites the
existing history (it only appends), and after `run()` the history length
equals the number of input rows. -/
theorem account_history_spec (slip cap : ℚ) (k : ℕ) (df : List SigRow) :
    (∀ cd st, (stepDay slip cd st).account.daily_values
        = st.account.daily_values
          ++ [(stepDay slip cd st).account.cash + (stepDay slip cd st).account.asset_value]
      ∧ (stepDay slip cd st).account.daily_dates
        = st.account.daily_dates ++ [(lastRow cd).date])
    ∧ (backtest_run slip df (init_state cap k)).account.daily_values.length = df.length
    ∧ (∀ st, ∃ extra, (backtest_run slip df st).account.daily_values
        = st.account.daily_values ++ extra) := by
  refine ⟨fun cd st => stepDay_history slip cd st, ?_,
    fun st => (backtest_run_history slip df st).2⟩
  simpa [init_state] using (backtest_run_history slip df (init_state cap k)).1

/-- C3 counterexample: on an empty input frame (`N = 0` rows) the derived
return series is `np.pad(np.diff([]) / [], (1, 0))` which is the one
element `[0.]`, so its length does not equal the input length. -/
theorem port_ret_empty_counterexample :
    (port_ret ((backtest_run 0 [] (init_state 100 1)).account.daily_values)).length
      ≠ ([] : List SigRow).length := by
  simp [backtest_run, port_ret, init_state]

/-- C3 (amended: at least one input row): for `N ≥ 1` input rows the
derived return series has length `N`, its first element is exactly 0, and
its `t`-th element for `t ≥ 1` is `(V[t] - V[t-1]) / V[t]` — the
denominator being the current period's account value. -/
theorem port_ret_spec (slip cap : ℚ) (k : ℕ) (df : List SigRow) (h : 1 ≤ df.length)
    (V : List ℚ) (hV : V = (backtest_run slip df (init_state cap k)).account.daily_values) :
    (port_ret V).length = df.length
    ∧ (port_ret V).getD 0 0 = 0
    ∧ ∀ t, 1 ≤ t → t < df.length →
        (port_ret V).getD t 0 = (V.getD t 0 - V.getD (t - 1) 0) / V.getD t 0 := by
  have hVlen : V.length = df.length := by
    rw [hV]
    simpa [init_state] using (backtest_run_history slip df (init_state cap k)).1
  have hzw : (List.zipWith (fun prev cur => (cur - prev) / cur) V V.tail).length
      = V.length - 1 := by
    simp [List.length_zipWith, List.length_tail]
  refine ⟨?_, rfl, ?_⟩
  · simp only [port_ret, List.length_cons, hzw]
    omega
  · intro t ht1 ht2
    obtain ⟨s, rfl⟩ : ∃ s, t = s + 1 := ⟨t - 1, by omega⟩
    have hs : s < (List.zipWith (fun prev cur => (cur - prev) / cur) V V.tail).length := by
      rw [hzw]; omega
    have hs1V : s + 1 < V.length := by omega
    have hsV : s < V.length := by omega
    simp only [port_ret, List.getD_cons_succ, Nat.add_sub_cancel]
    rw [List.getD_eq_getElem _ _ hs, List.getElem_zipWith,
      List.getD_eq_getElem _ _ hs1V, List.getD_eq_getElem _ _ hsV]
    simp [List.getElem_tail]

/-- Witness for C3's amended theorem on a one-row input. -/
theorem port_ret_spec_witness :
    (port_ret [100]).length = ([⟨1, [10], [0]⟩] : List SigRow).length
    ∧ (port_ret [100]).getD 0 0 = 0
    ∧ ∀ t, 1 ≤ t → t < ([⟨1, [10], [0]⟩] : List SigRow).length →
        (port_ret [100]).getD t 0
          = (([100] : List ℚ).getD t 0 - ([100] : List ℚ).getD (t - 1) 0)
            / ([100] : List ℚ).getD t 0 :=
  port_ret_spec 0 100 1 [⟨1, [10], [0]⟩] (by norm_num) [100] (by
    norm_num [backtest_run, stepDay, sellStage, buyStage, markToMarket, recordDay,
      lastRow, init_state, defaultRow, account.update_asset_value,
      account.update_daily_account_value, List.filter])

/-- Witness for C5's amended theorem at the concrete window `[0, 1]`. -/
theorem std_convention_relation_witness :
    (rolling_std_sq ([0, 1] : List ℚ).length [0, 1]).getD (([0, 1] : List ℚ).length - 1) none
        = some (sample_var [0, 1])
    ∧ ((([0, 1] : List ℚ).length : ℚ) - 1) * sample_var [0, 1]
        = ((([0, 1] : List ℚ).length : ℚ)) * pop_var [0, 1]
    ∧ (sample_var [0, 1] = pop_var [0, 1] ↔ pop_var [0, 1] = 0) :=
  std_convention_relation [0, 1] (by decide)

theorem sellPass_eq (slip : ℚ) (ss : List ℤ) (ps qs : List ℚ) (cash : ℚ)
    (h1 : ss.length = qs.length) (h2 : ps.length = qs.length) :
    (sellPass slip ss ps qs cash).1
      = List.zipWith (fun s q => if s = -1 ∧ q ≠ 0 then 0 else q) ss qs
    ∧ (sellPass slip ss ps qs cash).2
      = cash
        + (List.zipWith (fun sp q => if sp.1 = -1 ∧ q ≠ 0 then sp.2 * q * (1 - slip) else 0)
            (ss.zip ps) qs).sum := by
  induction ss generalizing ps qs cash with
  | nil =>
    cases qs with
    | nil => simp [sellPass]
    | cons q qt => simp at h1
  | cons s st ih =>
    cases qs with
    | nil => simp at h1
    | cons q qt =>
      cases ps with
      | nil => simp at h2
      | cons p pt =>
        have h1' : st.length = qt.length := by simpa using h1
        have h2' : pt.length = qt.length := by simpa using h2
        obtain ⟨e1, e2⟩ := ih pt qt (cash + p * q * (1 - slip)) h1' h2'
        obtain ⟨e1', e2'⟩ := ih pt qt cash h1' h2'
        by_cases hc : s = -1 ∧ q ≠ 0
        · refine ⟨?_, ?_⟩
          · simp only [sellPass, if_pos hc, List.zipWith_cons_cons, e1]
          · simp only [sellPass, if_pos hc, List.zip_cons_cons, List.zipWith_cons_cons,
              List.sum_cons, e2, if_pos hc]
            ring
        · refine ⟨?_, ?_⟩
          · simp only [sellPass, if_neg hc, List.zipWith_cons_cons, e1']
          · simp only [sellPass, if_neg hc, List.zip_cons_cons, List.zipWith_cons_cons,
              List.sum_cons, e2', if_neg hc]
            ring

theorem zipWith_sell_id (ss : List ℤ) (qs : List ℚ) (h : ∀ s ∈ ss, s ≠ -1)
    (hl : ss.length = qs.length) :
    List.zipWith (fun s q => if s = -1 ∧ q ≠ 0 then 0 else q) ss qs = qs := by
  induction ss generalizing qs with
  | nil => cases qs with | nil => rfl | cons q qt => simp at hl
  | cons s st ih =>
    cases qs with
    | nil => simp at hl
    | cons q qt =>
      have hs : s ≠ -1 := h s (by simp)
      simp only [List.zipWith_cons_cons]
      rw [if_neg (by simp [hs]),
        ih qt (fun x hx => h x (by simp [hx])) (by simpa using hl)]

theorem zipWith_sell_sum_zero (slip : ℚ) (ss : List ℤ) (ps qs : List ℚ)
    (h : ∀ s ∈ ss, s ≠ -1) :
    (List.zipWith (fun sp q => if sp.1 = -1 ∧ q ≠ 0 then sp.2 * q * (1 - slip) else 0)
        (ss.zip ps) qs).sum = 0 := by
  induction ss generalizing ps qs with
  | nil => simp
  | cons s st ih =>
    cases ps with
    | nil => simp
    | cons p pt =>
      cases qs with
      | nil => simp
      | cons q qt =>
        have hs : s ≠ -1 := h s (by simp)
        simp only [List.zip_cons_cons, List.zipWith_cons_cons, List.sum_cons]
        rw [if_neg (by simp [hs]), ih pt qt (fun x hx => h x (by simp [hx]))]
        simp

theorem lastRow_mem (cd : List SigRow) (h : cd ≠ []) : lastRow cd ∈ cd := by
  unfold lastRow
  rw [List.getLastD_eq_getLast?, List.getLast?_eq_getLast cd h]
  exact List.getLast_mem h

/-- C1: within a period the sell pass is applied in full before the buy
pass (`stepDay` is the record ∘ mark ∘ buy ∘ sell composition); after the
sell stage every instrument whose last-row signal is `-1` and whose holding
is nonzero has holding 0, every other instrument keeps its holding, and
cash has grown by the sum of `price * quantity * (1 - slippage)` over the
liquidated instruments (an instrument with signal `-1` but zero holding
contributes nothing and is unchanged). -/
theorem sell_pass_spec (slip : ℚ) (cd : List SigRow) (st : BState)
    (h1 : (lastRow cd).signals.length = st.position.length)
    (h2 : (lastRow cd).prices.length = st.position.length) :
    (sellStage slip cd st).position
      = List.zipWith (fun s q => if s = -1 ∧ q ≠ 0 then 0 else q)
          (lastRow cd).signals st.position
    ∧ (sellStage slip cd st).account.cash
      = st.account.cash
        + (List.zipWith (fun sp q => if sp.1 = -1 ∧ q ≠ 0 then sp.2 * q * (1 - slip) else 0)
            ((lastRow cd).signals.zip (lastRow cd).prices) st.position).sum
    ∧ stepDay slip cd st
      = recordDay (lastRow cd)
          (markToMarket (lastRow cd) (buyStage slip cd (sellStage slip cd st))) := by
  have hstage : (sellStage slip cd st).position
        = List.zipWith (fun s q => if s = -1 ∧ q ≠ 0 then 0 else q)
            (lastRow cd).signals st.position
      ∧ (sellStage slip cd st).account.cash
        = st.account.cash
          + (List.zipWith (fun sp q => if sp.1 = -1 ∧ q ≠ 0 then sp.2 * q * (1 - slip) else 0)
              ((lastRow cd).signals.zip (lastRow cd).prices) st.position).sum := by
    unfold sellStage
    split_ifs with hguard
    · obtain ⟨e1, e2⟩ :=
        sellPass_eq slip (lastRow cd).signals (lastRow cd).prices st.position
          st.account.cash h1 h2
      exact ⟨e1, e2⟩
    · have hnone : ∀ s ∈ (lastRow cd).signals, s ≠ -1 := by
        by_cases hcd : cd = []
        · subst hcd; simp [lastRow, defaultRow]
        · intro s hs
          by_contra hs1
          subst hs1
          apply hguard
          refine List.any_eq_true.2 ⟨lastRow cd, lastRow_mem cd hcd, ?_⟩
          simp only [decide_eq_true_eq]
          exact List.countP_pos_iff.2 ⟨-1, hs, by simp⟩
      refine ⟨(zipWith_sell_id _ _ hnone h1).symm, ?_⟩
      rw [zipWith_sell_sum_zero slip _ _ _ hnone, add_zero]
  exact ⟨hstage.1, hstage.2, rfl⟩

/-- Witness for C1 on one day with two tickers: the first has signal `-1`
and holding 2 at price 10 (liquidated, cash `7 + 10 * 2 * (1 - 1/10) = 25`),
the second has signal 0 and keeps its holding 3. -/
theorem sell_pass_spec_witness :
    (sellStage (1/10) [⟨5, [10, 20], [-1, 0]⟩]
        ⟨⟨7, 0, [], []⟩, [2, 3]⟩).position = [0, 3]
    ∧ (sellStage (1/10) [⟨5, [10, 20], [-1, 0]⟩]
        ⟨⟨7, 0, [], []⟩, [2, 3]⟩).account.cash = 25
    ∧ stepDay (1/10) [⟨5, [10, 20], [-1, 0]⟩] ⟨⟨7, 0, [], []⟩, [2, 3]⟩
      = recordDay (lastRow [⟨5, [10, 20], [-1, 0]⟩])
          (markToMarket (lastRow [⟨5, [10, 20], [-1, 0]⟩])
            (buyStage (1/10) [⟨5, [10, 20], [-1, 0]⟩]
              (sellStage (1/10) [⟨5, [10, 20], [-1, 0]⟩] ⟨⟨7, 0, [], []⟩, [2, 3]⟩))) := by
  have h := sell_pass_spec (1/10) [⟨5, [10, 20], [-1, 0]⟩] ⟨⟨7, 0, [], []⟩, [2, 3]⟩ rfl rfl
  refine ⟨?_, ?_, h.2.2⟩
  · rw [h.1]
    norm_num [lastRow, defaultRow]
  · rw [h.2.1]
    norm_num [lastRow, defaultRow]

theorem buyApply_eq (slip alloc : ℚ) (bs : List Bool) (ps qs : List ℚ) (cash : ℚ)
    (h1 : bs.length = qs.length) (h2 : ps.length = qs.length) :
    (buyApply slip alloc bs ps qs cash).1
      = List.zipWith (fun bp q => if bp.1 = true ∧ 1 < alloc / bp.2 then alloc / bp.2 else q)
          (bs.zip ps) qs
    ∧ (buyApply slip alloc bs ps qs cash).2
      = cash - (((bs.zip ps).countP (fun bp => bp.1 && decide (1 < alloc / bp.2)) : ℕ) : ℚ)
          * (alloc * (1 + slip)) := by
  induction bs generalizing ps qs cash with
  | nil =>
    cases qs with
    | nil => simp [buyApply]
    | cons q qt => simp at h1
  | cons b bt ih =>
    cases qs with
    | nil => simp at h1
    | cons q qt =>
      cases ps with
      | nil => simp at h2
      | cons p pt =>
        have h1' : bt.length = qt.length := by simpa using h1
        have h2' : pt.length = qt.length := by simpa using h2
        by_cases hc : b = true ∧ 1 < alloc / p
        · obtain ⟨e1, e2⟩ := ih pt qt (cash - alloc * (1 + slip)) h1' h2'
          have hpred : ((b, p).1 && decide (1 < alloc / (b, p).2)) = true := by
            simp [hc.1, hc.2]
          refine ⟨?_, ?_⟩
          · simp only [buyApply, if_pos hc, List.zip_cons_cons, List.zipWith_cons_cons, e1]
          · simp only [buyApply, if_pos hc, List.zip_cons_cons, List.countP_cons, hpred,
              if_true, e2]
            push_cast
            ring
        · obtain ⟨e1, e2⟩ := ih pt qt cash h1' h2'
          have hpred : ((b, p).1 && decide (1 < alloc / (b, p).2)) = false := by
            by_cases hb : b = true
            · have hlt : ¬ (1 < alloc / p) := fun hlt => hc ⟨hb, hlt⟩
              simp [hb, hlt]
            · simp only [Bool.not_eq_true] at hb
              simp [hb]
          refine ⟨?_, ?_⟩
          · simp only [buyApply, if_neg hc, List.zip_cons_cons, List.zipWith_cons_cons, e1]
          · simp only [buyApply, if_neg hc, List.zip_cons_cons, List.countP_cons, hpred,
              if_false, e2]
            push_cast
            ring

theorem candidates_true_sig (ss : List ℤ) (qs : List ℚ)
    (h : true ∈ buy_candidates ss qs) : 0 < ss.countP (fun s => s == 1) := by
  induction ss generalizing qs with
  | nil => simp [buy_candidates] at h
  | cons s st ih =>
    cases qs with
    | nil => simp [buy_candidates] at h
    | cons q qt =>
      simp only [buy_candidates, List.zipWith_cons_cons, List.mem_cons] at h
      rw [List.countP_cons]
      rcases h with heq | hmem
      · have h' := heq.symm
        rw [Bool.and_eq_true] at h'
        simp [h'.1]
      · have := ih qt (by simpa [buy_candidates] using hmem)
        omega

theorem candidates_count_zero (ss : List ℤ) (qs : List ℚ)
    (h : ss.countP (fun s => s == 1) = 0) : (buy_candidates ss qs).count true = 0 := by
  rw [List.count_eq_zero]
  intro hmem
  have := candidates_true_sig ss qs hmem
  omega

/-- C2: in the buy pass, with candidates the instruments whose last-row
signal is `+1` and whose holding is 0, when cash is positive and there is
at least one candidate, the allocation is the single snapshot
`cash / |candidates|`; each candidate independently gets holding
`allocation / price` and debits cash by exactly
`allocation * (1 + slippage)` precisely when `allocation / price > 1`, with
no non-negativity clamp on the resulting cash (it is exactly the snapshot
minus `#buys * allocation * (1 + slippage)`), and a candidate failing the
lot filter keeps its holding and changes nothing else. -/
theorem buy_pass_spec (slip : ℚ) (cd : List SigRow) (st : BState)
    (h1 : (lastRow cd).signals.length = st.position.length)
    (h2 : (lastRow cd).prices.length = st.position.length)
    (hcash : 0 < st.account.cash)
    (hn : 0 < (buy_candidates (lastRow cd).signals st.position).count true) :
    (buyStage slip cd st).position
      = List.zipWith
          (fun bp q =>
            if bp.1 = true ∧ 1 < cash_allocation (lastRow cd) st / bp.2
            then cash_allocation (lastRow cd) st / bp.2 else q)
          ((buy_candidates (lastRow cd).signals st.position).zip (lastRow cd).prices)
          st.position
    ∧ (buyStage slip cd st).account.cash
      = st.account.cash
        - ((((buy_candidates (lastRow cd).signals st.position).zip (lastRow cd).prices).countP
              (fun bp => bp.1 && decide (1 < cash_allocation (lastRow cd) st / bp.2)) : ℕ) : ℚ)
          * (cash_allocation (lastRow cd) st * (1 + slip)) := by
  have hne : cd ≠ [] := by
    intro hcd
    subst hcd
    simp [lastRow, defaultRow, buy_candidates] at hn
  have hguard : cd.any (fun r => decide (0 < r.signals.countP (fun s => s == 1))) = true := by
    refine List.any_eq_true.2 ⟨lastRow cd, lastRow_mem cd hne, ?_⟩
    simp only [decide_eq_true_eq]
    exact candidates_true_sig _ _ (List.count_pos_iff.1 hn)
  have hl1 : (buy_candidates (lastRow cd).signals st.position).length = st.position.length := by
    simp [buy_candidates, List.length_zipWith, h1]
  obtain ⟨e1, e2⟩ := buyApply_eq slip
    (st.account.cash / ((buy_candidates (lastRow cd).signals st.position).count true : ℚ))
    (buy_candidates (lastRow cd).signals st.position) (lastRow cd).prices st.position
    st.account.cash hl1 h2
  unfold buyStage
  rw [if_pos hguard]
  unfold buyPhase
  dsimp only
  rw [if_pos ⟨hcash, hn⟩]
  exact ⟨e1, e2⟩

/-- Witness for C2: one candidate at price 1 with cash 12 and slippage
`1/2`: allocation 12 passes the lot filter, the holding becomes 12 and cash
is debited `12 * (1 + 1/2) = 18`, leaving `-6` — negative, unclamped. -/
theorem buy_pass_spec_witness :
    (buyStage (1/2) [⟨3, [1], [1]⟩] ⟨⟨12, 0, [], []⟩, [0]⟩).position = [12]
    ∧ (buyStage (1/2) [⟨3, [1], [1]⟩] ⟨⟨12, 0, [], []⟩, [0]⟩).account.cash = -6 := by
  have h := buy_pass_spec (1/2) [⟨3, [1], [1]⟩] ⟨⟨12, 0, [], []⟩, [0]⟩ rfl rfl
    (by norm_num) (by norm_num [buy_candidates, lastRow, defaultRow])
  refine ⟨?_, ?_⟩
  · rw [h.1]
    norm_num [cash_allocation, buy_candidates, lastRow, defaultRow]
  · rw [h.2]
    norm_num [cash_allocation, buy_candidates, lastRow, defaultRow]

theorem sellPhase_noop (slip : ℚ) (row : SigRow) (st : BState)
    (h1 : row.signals.length = st.position.length)
    (h2 : row.prices.length = st.position.length)
    (h : ∀ s ∈ row.signals, s ≠ -1) :
    sellPhase slip row st = st := by
  obtain ⟨e1, e2⟩ :=
    sellPass_eq slip row.signals row.prices st.position st.account.cash h1 h2
  have hpos : (sellPass slip row.signals row.prices st.position st.account.cash).1
      = st.position := by
    rw [e1]
    exact zipWith_sell_id _ _ h h1
  have hcash : (sellPass slip row.signals row.prices st.position st.account.cash).2
      = st.account.cash := by
    rw [e2, zipWith_sell_sum_zero slip _ _ _ h, add_zero]
  simp only [sellPhase]
  rw [hpos, hcash]

theorem buyPhase_noop (slip : ℚ) (row : SigRow) (st : BState)
    (h : (buy_candidates row.signals st.position).count true = 0) :
    buyPhase slip row st = st := by
  unfold buyPhase
  dsimp only
  rw [if_neg (by simp [h])]

/-- C10: a simulated day depends only on the last input row bearing its
date — the sell pass, buy pass and mark-to-market all read signals and
prices through `[-1]` indexing, and the any-row signal guards never change
the outcome, so `stepDay` on the whole duplicate group equals `stepDay` on
the singleton last row. -/
theorem last_row_only (slip : ℚ) (cd : List SigRow) (st : BState) (hne : cd ≠ [])
    (h1 : (lastRow cd).signals.length = st.position.length)
    (h2 : (lastRow cd).prices.length = st.position.length) :
    stepDay slip cd st = stepDay slip [lastRow cd] st := by
  have hlast : lastRow [lastRow cd] = lastRow cd := rfl
  have hsell : sellStage slip cd st = sellStage slip [lastRow cd] st := by
    by_cases hp : 0 < (lastRow cd).signals.countP (fun s => s == (-1 : ℤ))
    · have lhs_eq : sellStage slip cd st = sellPhase slip (lastRow cd) st := by
        unfold sellStage
        rw [if_pos (List.any_eq_true.2
          ⟨lastRow cd, lastRow_mem cd hne, decide_eq_true hp⟩)]
      have rhs_eq : sellStage slip [lastRow cd] st = sellPhase slip (lastRow cd) st := by
        unfold sellStage
        rw [hlast]
        rw [if_pos (show ([lastRow cd] : List SigRow).any
            (fun r => decide (0 < r.signals.countP (fun s => s == (-1 : ℤ)))) = true by
          simp only [List.any_cons, List.any_nil, Bool.or_false]
          exact decide_eq_true hp)]
      rw [lhs_eq, rhs_eq]
    · have hnone : ∀ s ∈ (lastRow cd).signals, s ≠ -1 := by
        have hz : (lastRow cd).signals.countP (fun s => s == (-1 : ℤ)) = 0 := by omega
        rw [List.countP_eq_zero] at hz
        intro s hs hs1
        exact hz s hs (by simp [hs1])
      have lhs_eq : sellStage slip cd st = st := by
        unfold sellStage
        split_ifs with hg
        · exact sellPhase_noop slip (lastRow cd) st h1 h2 hnone
        · rfl
      have rhs_eq : sellStage slip [lastRow cd] st = st := by
        unfold sellStage
        rw [hlast]
        split_ifs with hg
        · exact sellPhase_noop slip (lastRow cd) st h1 h2 hnone
        · rfl
      rw [lhs_eq, rhs_eq]
  have hbuy : buyStage slip cd (sellStage slip cd st)
      = buyStage slip [lastRow cd] (sellStage slip cd st) := by
    by_cases hp : 0 < (lastRow cd).signals.countP (fun s => s == (1 : ℤ))
    · have lhs_eq : buyStage slip cd (sellStage slip cd st)
          = buyPhase slip (lastRow cd) (sellStage slip cd st) := by
        unfold buyStage
        rw [if_pos (List.any_eq_true.2
          ⟨lastRow cd, lastRow_mem cd hne, decide_eq_true hp⟩)]
      have rhs_eq : buyStage slip [lastRow cd] (sellStage slip cd st)
          = buyPhase slip (lastRow cd) (sellStage slip cd st) := by
        unfold buyStage
        rw [hlast]
        rw [if_pos (show ([lastRow cd] : List SigRow).any
            (fun r => decide (0 < r.signals.countP (fun s => s == (1 : ℤ)))) = true by
          simp only [List.any_cons, List.any_nil, Bool.or_false]
          exact decide_eq_true hp)]
      rw [lhs_eq, rhs_eq]
    · have hz : (lastRow cd).signals.countP (fun s => s == (1 : ℤ)) = 0 := by omega
      have lhs_eq : buyStage slip cd (sellStage slip cd st) = sellStage slip cd st := by
        unfold buyStage
        split_ifs with hg
        · exact buyPhase_noop slip (lastRow cd) _ (candidates_count_zero _ _ hz)
        · rfl
      have rhs_eq : buyStage slip [lastRow cd] (sellStage slip cd st)
          = sellStage slip cd st := by
        unfold buyStage
        rw [hlast]
        split_ifs with hg
        · exact buyPhase_noop slip (lastRow cd) _ (candidates_count_zero _ _ hz)
        · rfl
      rw [lhs_eq, rhs_eq]
  unfold stepDay
  rw [hlast, ← hsell, ← hbuy]

/-- Witness for C10: two rows share date 7; the earlier one carries a `+1`
signal that the day's processing ignores, because only the last row is
read. -/
theorem last_row_only_witness :
    stepDay 0 [⟨7, [5], [1]⟩, ⟨7, [6], [0]⟩] ⟨⟨50, 0, [], []⟩, [1]⟩
      = stepDay 0 [⟨7, [6], [0]⟩] ⟨⟨50, 0, [], []⟩, [1]⟩ :=
  last_row_only 0 [⟨7, [5], [1]⟩, ⟨7, [6], [0]⟩] ⟨⟨50, 0, [], []⟩, [1]⟩
    (by simp) rfl rfl

theorem zipWith_replicate_eq {α β γ : Type} (f : α → β → γ) (k : ℕ) (a : α) (b : β) :
    List.zipWith f (List.replicate k a) (List.replicate k b) = List.replicate k (f a b) := by
  induction k with
  | zero => rfl
  | succ k ih => simp [List.replicate_succ, ih]

theorem rolling_mean_take (n : ℕ) (xs : List ℚ) :
    (rolling_mean n xs).take (n - 1) = List.replicate (n - 1) 0 := by
  have h := List.take_left (List.replicate (n - 1) (0 : ℚ))
    ((List.range (xs.length + 1 - n)).map (fun j => mean ((xs.drop j).take n)))
  rw [List.length_replicate] at h
  exact h

theorem rolling_std_sq_take (n : ℕ) (xs : List ℚ) (h2 : n ≤ xs.length) :
    (rolling_std_sq n xs).take (n - 1) = List.replicate (n - 1) none := by
  unfold rolling_std_sq
  rw [← List.map_take, List.take_range]
  have hmin : min (n - 1) xs.length = n - 1 := by omega
  rw [hmin]
  refine List.eq_replicate_iff.2 ⟨by simp, ?_⟩
  intro b hb
  obtain ⟨i, hi, rfl⟩ := List.mem_map.1 hb
  rw [List.mem_range] at hi
  have hip : i + 1 < n := by omega
  simp [hip]

theorem rolling_sharpe_length (n : ℕ) (xs : List ℚ) (h1 : 1 ≤ n) (h2 : n ≤ xs.length) :
    (rolling_sharpe n xs).length = xs.length := by
  simp only [rolling_sharpe, List.length_zipWith, rolling_mean, rolling_std_sq,
    List.length_append, List.length_replicate, List.length_map, List.length_range]
  omega

/-- C7 counterexample: with window length 2 over the series `[0, 0]`,
position 1 is the first fully-filled window, yet the rolling std there is 0
and the rolling Sharpe is `0 / 0` — NaN, not a defined number. -/
theorem rolling_sharpe_counterexample :
    (rolling_sharpe 2 [0, 0]).getD 1 none = none
    ∧ rolling_sharpe 2 [0, 0] = [none, none] := by
  norm_num [rolling_sharpe, rolling_mean, rolling_std_sq, sample_var, mean,
    window_ending, List.range_succ]

/-- C7 (amended): for `1 ≤ window_length ≤ len`, the rolling mean is
zero-filled and the rolling std NaN-marked on the first `window_length - 1`
positions, so the rolling Sharpe is NaN there; from the first fully-filled
window onward the rolling std carries the window's sample variance and the
rolling Sharpe is a defined number provided `window_length ≥ 2` and that
variance is nonzero (a zero-variance window, or `window_length = 1` where
polars' ddof-1 std is NaN, still yields NaN). -/
theorem rolling_sharpe_padding (n : ℕ) (xs : List ℚ) (h1 : 1 ≤ n) (h2 : n ≤ xs.length) :
    (rolling_mean n xs).take (n - 1) = List.replicate (n - 1) 0
    ∧ (rolling_std_sq n xs).take (n - 1) = List.replicate (n - 1) none
    ∧ (rolling_sharpe n xs).take (n - 1) = List.replicate (n - 1) none
    ∧ (rolling_sharpe n xs).length = xs.length
    ∧ ∀ i, n - 1 ≤ i → i < xs.length → 2 ≤ n →
        (rolling_std_sq n xs).getD i none = some (sample_var (window_ending n i xs))
        ∧ (sample_var (window_ending n i xs) ≠ 0 →
            ∃ q, (rolling_sharpe n xs).getD i none = some q) := by
  refine ⟨rolling_mean_take n xs, rolling_std_sq_take n xs h2, ?_, ?_, ?_⟩
  · unfold rolling_sharpe
    rw [List.take_zipWith, rolling_mean_take n xs, rolling_std_sq_take n xs h2,
      zipWith_replicate_eq]
  · exact rolling_sharpe_length n xs h1 h2
  · intro i hi hilen hn2
    have hcond : ¬ (i + 1 < n ∨ n ≤ 1) := by omega
    have hstd : (rolling_std_sq n xs).getD i none
        = some (sample_var (window_ending n i xs)) := by
      rw [rolling_std_sq_getD n xs i hilen, if_neg hcond]
    refine ⟨hstd, ?_⟩
    intro hv
    have hiL : i < (rolling_sharpe n xs).length := by
      rw [rolling_sharpe_length n xs h1 h2]
      exact hilen
    have hiStd : i < (rolling_std_sq n xs).length := by
      simpa [rolling_std_sq] using hilen
    have hstd2 : (rolling_std_sq n xs)[i]
        = some (sample_var (window_ending n i xs)) := by
      rw [← List.getD_eq_getElem _ none hiStd]
      exact hstd
    refine ⟨252 * (rolling_mean n xs).getD i 0 * |(rolling_mean n xs).getD i 0|
      / sample_var (window_ending n i xs), ?_⟩
    rw [List.getD_eq_getElem _ none hiL]
    unfold rolling_sharpe
    rw [List.getElem_zipWith]
    rw [hstd2]
    have hiM : i < (rolling_mean n xs).length := by
      have := rolling_sharpe_length n xs h1 h2
      simp only [rolling_sharpe, List.length_zipWith] at this
      omega
    rw [List.getD_eq_getElem _ 0 hiM]
    simp [hv]

/-- Witness for C7's amended theorem at window 2 over `[0, 1]`. -/
theorem rolling_sharpe_padding_witness :
    (rolling_mean 2 [0, 1]).take 1 = List.replicate 1 0
    ∧ (rolling_std_sq 2 [0, 1]).take 1 = List.replicate 1 none
    ∧ (rolling_sharpe 2 [0, 1]).take 1 = List.replicate 1 none
    ∧ (rolling_sharpe 2 [0, 1]).length = ([0, 1] : List ℚ).length
    ∧ ∀ i, 1 ≤ i → i < ([0, 1] : List ℚ).length → 2 ≤ 2 →
        (rolling_std_sq 2 [0, 1]).getD i none = some (sample_var (window_ending 2 i [0, 1]))
        ∧ (sample_var (window_ending 2 i [0, 1]) ≠ 0 →
            ∃ q, (rolling_sharpe 2 [0, 1]).getD i none = some q) :=
  rolling_sharpe_padding 2 [0, 1] (by norm_num) (by norm_num)

theorem cumprod_from_pos (xs : List ℚ) (a : ℚ) (ha : 0 < a) (h : ∀ r ∈ xs, -1 < r) :
    ∀ y ∈ cumprod_from a xs, 0 < y := by
  induction xs generalizing a with
  | nil => simp [cumprod_from]
  | cons x t ih =>
    have hx : 0 < a * (1 + x) := by
      have := h x (by simp)
      have h1x : 0 < 1 + x := by linarith
      exact mul_pos ha h1x
    intro y hy
    simp only [cumprod_from, List.mem_cons] at hy
    rcases hy with rfl | hy
    · exact hx
    · exact ih (a * (1 + x)) hx (fun r hr => h r (by simp [hr])) y hy

theorem runningMaxAux_zip_spec (l : List ℚ) (m : ℚ) (hm : 0 < m) (h : ∀ y ∈ l, 0 < y) :
    ∀ pr ∈ (runningMaxAux m l).zip l, 0 < pr.2 ∧ pr.2 ≤ pr.1 ∧ 0 < pr.1 := by
  induction l generalizing m with
  | nil => simp [runningMaxAux]
  | cons x t ih =>
    intro pr hpr
    simp only [runningMaxAux, List.zip_cons_cons, List.mem_cons] at hpr
    rcases hpr with rfl | hpr
    · have hx : 0 < x := h x (by simp)
      exact ⟨hx, le_max_right m x, lt_max_of_lt_right hx⟩
    · exact ih (max m x) (lt_max_of_lt_left hm) (fun y hy => h y (by simp [hy])) pr hpr

theorem runningMax_zip_spec (l : List ℚ) (h : ∀ y ∈ l, 0 < y) :
    ∀ pr ∈ (runningMax l).zip l, 0 < pr.2 ∧ pr.2 ≤ pr.1 ∧ 0 < pr.1 := by
  cases l with
  | nil => simp [runningMax]
  | cons x t =>
    intro pr hpr
    simp only [runningMax, List.zip_cons_cons, List.mem_cons] at hpr
    rcases hpr with rfl | hpr
    · have hx : 0 < x := h x (by simp)
      exact ⟨hx, le_refl x, hx⟩
    · exact runningMaxAux_zip_spec t x (h x (by simp)) (fun y hy => h y (by simp [hy])) pr hpr

theorem ratios_eq (A B : List ℚ) :
    List.zipWith divOpt (List.zipWith (fun m c => m - c) A B) A
      = (A.zip B).map (fun pr => divOpt (pr.1 - pr.2) pr.1) := by
  induction A generalizing B with
  | nil => simp
  | cons a A ih =>
    cases B with
    | nil => simp
    | cons b B =>
      simp only [List.zipWith_cons_cons, List.zip_cons_cons, List.map_cons]
      rw [ih B]

theorem listMaxOpt_bounds (lo hi : ℚ) (l : List (Option ℚ))
    (h : ∀ o ∈ l, ∃ v, o = some v ∧ lo ≤ v ∧ v < hi) (hne : l ≠ []) :
    ∃ v, listMaxOpt l = some v ∧ lo ≤ v ∧ v < hi := by
  induction l with
  | nil => simp at hne
  | cons a t ih =>
    cases t with
    | nil =>
      obtain ⟨v, hv, hv1, hv2⟩ := h a (by simp)
      exact ⟨v, by simp [listMaxOpt, hv], hv1, hv2⟩
    | cons b t2 =>
      obtain ⟨v, hv, hv1, hv2⟩ := h a (by simp)
      obtain ⟨w, hw, hw1, hw2⟩ := ih (fun o ho => h o (by simp [ho])) (by simp)
      refine ⟨max v w, ?_, le_max_of_le_left hv1, max_lt hv2 hw2⟩
      rw [listMaxOpt, hv, hw]
      rfl

theorem listMaxOpt_const_zero (l : List (Option ℚ)) (h : ∀ o ∈ l, o = some 0)
    (hne : l ≠ []) : listMaxOpt l = some 0 := by
  induction l with
  | nil => simp at hne
  | cons a t ih =>
    cases t with
    | nil => simp [listMaxOpt, h a (by simp)]
    | cons b t2 =>
      have ht := ih (fun o ho => h o (by simp [ho])) (by simp)
      rw [listMaxOpt, h a (by simp), ht]
      simp [maxOptCombine]

theorem roundHE_bounds (q : ℚ) : ⌊q⌋ ≤ roundHE q ∧ roundHE q ≤ ⌊q⌋ + 1 := by
  unfold roundHE
  dsimp only
  split_ifs <;> omega

theorem roundHE_of_int (z : ℤ) : roundHE (z : ℚ) = z := by
  unfold roundHE
  dsimp only
  rw [Int.floor_intCast]
  norm_num

theorem round2_mem (q : ℚ) (h0 : 0 ≤ q) (h1 : q < 100) :
    0 ≤ round2 q ∧ round2 q ≤ 100 := by
  obtain ⟨hlo, hhi⟩ := roundHE_bounds (q * 100)
  have hf0 : (0 : ℤ) ≤ ⌊q * 100⌋ := Int.floor_nonneg.2 (by positivity)
  have hf1 : ⌊q * 100⌋ < 10000 := by
    have hq : q * 100 < 10000 := by linarith
    exact Int.floor_lt.2 (by exact_mod_cast hq)
  unfold round2
  constructor
  · have hnum : (0 : ℚ) ≤ ((roundHE (q * 100) : ℤ) : ℚ) := by
      exact_mod_cast le_trans hf0 hlo
    positivity
  · have hnum : ((roundHE (q * 100) : ℤ) : ℚ) ≤ 10000 := by
      exact_mod_cast by omega
    linarith

theorem runningMaxAux_chain (t : List ℚ) (m : ℚ) (h : List.Chain (· ≤ ·) m t) :
    runningMaxAux m t = t := by
  induction t generalizing m with
  | nil => rfl
  | cons y t2 ih =>
    rcases List.chain_cons.1 h with ⟨hmy, hc⟩
    simp [runningMaxAux, max_eq_right hmy, ih y hc]

theorem runningMax_chain (l : List ℚ) (h : List.Chain' (· ≤ ·) l) : runningMax l = l := by
  cases l with
  | nil => rfl
  | cons x t => simp [runningMax, runningMaxAux_chain t x h]

theorem zip_self_spec (l : List ℚ) : ∀ pr ∈ l.zip l, pr.1 = pr.2 ∧ pr.1 ∈ l := by
  induction l with
  | nil => simp
  | cons x t ih =>
    intro pr hpr
    simp only [List.zip_cons_cons, List.mem_cons] at hpr
    rcases hpr with rfl | hpr
    · exact ⟨rfl, by simp⟩
    · obtain ⟨he, hm⟩ := ih pr hpr
      exact ⟨he, by simp [hm]⟩

/-- C9 counterexample: the return series `[0, -2]` (a one-period return
below `-100%`) drives the cumulative curve negative, and `compute_max_dd`
returns `200`, outside `[0, 100]`. -/
theorem max_dd_counterexample :
    compute_max_dd [0, -2] = some 200 ∧ ¬ ((200 : ℚ) ≤ 100) := by
  constructor
  · have hmax1 : max (1 : ℚ) (-1) = 1 := max_eq_left (by norm_num)
    have hmax2 : max (0 : ℚ) 2 = 2 := max_eq_right (by norm_num)
    have hr2 : round2 (200 : ℚ) = 200 := by
      have hcast : ((200 : ℚ)) * 100 = ((20000 : ℤ) : ℚ) := by norm_num
      unfold round2
      rw [hcast, roundHE_of_int]
      norm_num
    unfold compute_max_dd
    dsimp only
    norm_num [cumprod1p, cumprod_from, hmax1, runningMax, runningMaxAux, divOpt]
    rw [listMaxOpt, listMaxOpt]
    norm_num [maxOptCombine, hmax2, hr2]
  · norm_num

/-- C9 (amended): for a non-empty windowed return series whose returns all
exceed `-1` (so the cumulative curve stays positive), `compute_max_dd`
returns a defined percentage in `[0, 100]`, and returns exactly 0 whenever
the cumulative return curve is monotonically non-decreasing. -/
theorem max_dd_spec (xs : List ℚ) (hne : xs ≠ []) (hr : ∀ r ∈ xs, -1 < r) :
    (∃ v, compute_max_dd xs = some v ∧ 0 ≤ v ∧ v ≤ 100)
    ∧ (List.Chain' (· ≤ ·) (cumprod1p xs) → compute_max_dd xs = some 0) := by
  have hpos : ∀ y ∈ cumprod1p xs, 0 < y := cumprod_from_pos xs 1 one_pos hr
  have hlenpos : 0 < xs.length := List.length_pos.2 hne
  have hne2 : ((runningMax (cumprod1p xs)).zip (cumprod1p xs)).map
      (fun pr => divOpt (pr.1 - pr.2) pr.1) ≠ [] := by
    apply List.ne_nil_of_length_pos
    simp only [List.length_map, List.length_zip, runningMax_length, cumprod1p_length]
    omega
  constructor
  · have hzip := runningMax_zip_spec (cumprod1p xs) hpos
    have helem : ∀ o ∈ ((runningMax (cumprod1p xs)).zip (cumprod1p xs)).map
        (fun pr => divOpt (pr.1 - pr.2) pr.1), ∃ v, o = some v ∧ 0 ≤ v ∧ v < 1 := by
      intro o ho
      obtain ⟨pr, hpr, rfl⟩ := List.mem_map.1 ho
      obtain ⟨hc, hcm, hm⟩ := hzip pr hpr
      refine ⟨(pr.1 - pr.2) / pr.1, ?_, ?_, ?_⟩
      · simp [divOpt, ne_of_gt hm]
      · exact div_nonneg (by linarith) (le_of_lt hm)
      · rw [div_lt_one hm]
        linarith
    obtain ⟨v, hv, hv0, hv1⟩ := listMaxOpt_bounds 0 1 _ helem hne2
    have hb := round2_mem (v * 100) (by linarith) (by linarith)
    refine ⟨round2 (v * 100), ?_, hb.1, hb.2⟩
    unfold compute_max_dd
    dsimp only
    rw [ratios_eq, hv]
    rfl
  · intro hchain
    have hrm : runningMax (cumprod1p xs) = cumprod1p xs := runningMax_chain _ hchain
    have helem : ∀ o ∈ ((cumprod1p xs).zip (cumprod1p xs)).map
        (fun pr => divOpt (pr.1 - pr.2) pr.1), o = some 0 := by
      intro o ho
      obtain ⟨pr, hpr, rfl⟩ := List.mem_map.1 ho
      obtain ⟨he, hm⟩ := zip_self_spec (cumprod1p xs) pr hpr
      have hp1 : 0 < pr.1 := hpos pr.1 hm
      have hsub : pr.1 - pr.2 = 0 := by rw [← he]; ring
      rw [hsub]
      simp [divOpt, ne_of_gt hp1]
    have hne3 : ((cumprod1p xs).zip (cumprod1p xs)).map
        (fun pr => divOpt (pr.1 - pr.2) pr.1) ≠ [] := by
      apply List.ne_nil_of_length_pos
      simp only [List.length_map, List.length_zip, cumprod1p_length, min_self]
      omega
    have hz : round2 (0 : ℚ) = 0 := by
      have hcast : ((0 : ℚ)) * 100 = ((0 : ℤ) : ℚ) := by norm_num
      unfold round2
      rw [hcast, roundHE_of_int]
      norm_num
    unfold compute_max_dd
    dsimp only
    rw [ratios_eq, hrm, listMaxOpt_const_zero _ helem hne3]
    simp [hz]

/-- Witness for C9's amended theorem on `[0, 1]`, whose cumulative curve
`[1, 2]` is non-decreasing: the max drawdown is a defined value in
`[0, 100]` and is exactly 0. -/
theorem max_dd_spec_witness :
    (∃ v, compute_max_dd [0, 1] = some v ∧ 0 ≤ v ∧ v ≤ 100)
    ∧ (List.Chain' (· ≤ ·) (cumprod1p [0, 1]) → compute_max_dd [0, 1] = some 0) :=
  max_dd_spec [0, 1] (by simp) (by norm_num)

end Backtester
